import Mathlib

/-!
Verification of the klog-inator archive matcher against its specification.

The definitions below are a shallow embedding of the Go sources:
  pkg/inator/types.go   (Severity, LogStatement, ParsedLog, fingerprints),
  pkg/inator/match.go   (ParseLine, matcher counters, AggregateResults, SortMatches),
  pkg/fast/reader.go    (ReadLines chunking).
Go machine integers are modelled as Int (with explicit clamping where the Go
code clamps), byte and character data as List Char or List UInt8, Go maps
extensionally as functions into Option, and Go run-time panics as an explicit
Except error value.  Loops are modelled by structural recursion; where a Go
loop advances an index, the recursion carries a fuel argument that is an upper
bound on the remaining iterations (each iteration consumes at least one unit),
so exhausting the fuel is unreachable at the call sites used here.
-/

set_option maxHeartbeats 1000000

namespace KlogInator

/-- Run-time aborts of the Go code: out-of-range index expressions,
invalid slice expressions, and integer division by zero. -/
inductive GoPanic where
  | indexOutOfRange
  | sliceBounds
  | divByZero
deriving DecidableEq, Repr

instance instDecEqExcept {e a : Type} [DecidableEq e] [DecidableEq a] :
    DecidableEq (Except e a) := fun x y =>
  match x, y with
  | .error u, .error v =>
    match decEq u v with
    | isTrue h => isTrue (congrArg Except.error h)
    | isFalse h => isFalse (fun q => h (Except.error.inj q))
  | .ok u, .ok v =>
    match decEq u v with
    | isTrue h => isTrue (congrArg Except.ok h)
    | isFalse h => isFalse (fun q => h (Except.ok.inj q))
  | .error _, .ok _ => isFalse (fun q => Except.noConfusion q)
  | .ok _, .error _ => isFalse (fun q => Except.noConfusion q)

/-! ### Go path and filepath functions (unix separator), over character lists

These model path.Clean, filepath.Base, filepath.Dir and filepath.Join as used
by LogStatement.ShortSourceFile in pkg/inator/types.go. -/

/-- Go os.IsPathSeparator on unix: the byte is a forward slash. -/
def isPathSep (c : Char) : Bool := c == '/'

/-- Backtracking step of path.Clean for a dot-dot element: the Go code does
out.w-- and then keeps decrementing out.w while out.w > dotdot and the
character just past the new end is not a separator.  rev is the output buffer
in reverse order. -/
def cleanBack (rev : List Char) (dotdot : Nat) : List Char :=
  match rev with
  | [] => []
  | c :: rest =>
    if decide (dotdot < rest.length) && !isPathSep c then cleanBack rest dotdot else rest

/-- Main loop of Go path.Clean.  rev is the output buffer in reverse order,
dotdot the backtracking barrier.  fuel bounds the characters still to be
consumed; every branch consumes at least one character, so the remaining
length is sufficient fuel. -/
def cleanLoop (rooted : Bool) : Nat → List Char → List Char → Nat → List Char
  | 0, _, rev, _ => rev
  | _ + 1, [], rev, _ => rev
  | fuel + 1, c :: rest, rev, dotdot =>
    if isPathSep c then cleanLoop rooted fuel rest rev dotdot
    else if c == '.' && (rest.isEmpty || isPathSep (rest.headD ' ')) then
      cleanLoop rooted fuel rest rev dotdot
    else if c == '.' && rest.headD ' ' == '.' &&
        ((rest.drop 1).isEmpty || isPathSep ((rest.drop 1).headD ' ')) then
      if decide (dotdot < rev.length) then
        cleanLoop rooted fuel (rest.drop 1) (cleanBack rev dotdot) dotdot
      else if !rooted then
        let rev2 := '.' :: '.' :: (if rev.length ≠ 0 then '/' :: rev else rev)
        cleanLoop rooted fuel (rest.drop 1) rev2 rev2.length
      else cleanLoop rooted fuel (rest.drop 1) rev dotdot
    else
      let needSep := if rooted then rev.length ≠ 1 else rev.length ≠ 0
      let seg := c :: rest.takeWhile (fun x => !isPathSep x)
      cleanLoop rooted fuel (rest.dropWhile (fun x => !isPathSep x))
        (seg.reverse ++ (if needSep then '/' :: rev else rev)) dotdot

/-- Go path.Clean on a unix path. -/
def goClean (path : List Char) : List Char :=
  if path.isEmpty then ['.']
  else
    let rooted := isPathSep (path.headD ' ')
    let rev :=
      if rooted then cleanLoop rooted (path.length - 1) (path.drop 1) ['/'] 1
      else cleanLoop rooted path.length path [] 0
    if rev.length = 0 then ['.'] else rev.reverse

/-- Go filepath.Base on a unix path: strip trailing separators, then keep
everything after the last separator; empty input gives a dot, all-separator
input gives a slash. -/
def goBase (path : List Char) : List Char :=
  if path.isEmpty then ['.']
  else
    let p1 := (path.reverse.dropWhile isPathSep).reverse
    let p2 := (p1.reverse.takeWhile (fun c => !isPathSep c)).reverse
    if p2.isEmpty then ['/'] else p2

/-- Go filepath.Dir on a unix path: everything up to and including the last
separator, cleaned (Clean of the empty string is a dot). -/
def goDir (path : List Char) : List Char :=
  goClean ((path.reverse.dropWhile (fun c => !isPathSep c)).reverse)

/-- Go filepath.Join of two elements: skip leading empty elements, join the
rest with a separator, and clean the result. -/
def goJoin2 (a b : List Char) : List Char :=
  if !a.isEmpty then goClean (a ++ '/' :: b)
  else if !b.isEmpty then goClean b
  else []

/-! ### SHA-1 (FIPS 180) over byte lists, and hex encoding

Models crypto/sha1 plus encoding/hex as used by the two Fingerprint methods.
Words are Nat values kept below 2 to the 32nd power. -/

/-- The 32-bit modulus. -/
def w32 : Nat := 4294967296

/-- Left rotation of a 32-bit word; for x below the modulus the two summands
occupy disjoint bit ranges. -/
def rotl32 (x n : Nat) : Nat := (x * 2 ^ n + x / 2 ^ (32 - n)) % w32

/-- Big-endian byte expansion of a value into k bytes. -/
def beBytes : Nat → Nat → List Nat
  | 0, _ => []
  | k + 1, v => beBytes k (v / 256) ++ [v % 256]

/-- Combine four big-endian bytes into one word. -/
def wordBE (bs : List Nat) : Nat := bs.foldl (fun acc b => acc * 256 + b) 0

/-- SHA-1 message padding: one 128 byte, zero bytes up to 56 mod 64, then the
bit length as eight big-endian bytes. -/
def sha1Pad (msg : List Nat) : List Nat :=
  let l := msg.length
  msg ++ 128 :: List.replicate ((55 + 64 - l % 64) % 64) 0 ++ beBytes 8 (l * 8)

/-- Split a byte list into 64-byte blocks; the tail xs.drop 63 is the drop of
64 elements from the whole list. -/
def chunks64 : List Nat → List (List Nat)
  | [] => []
  | x :: xs => (x :: xs).take 64 :: chunks64 (xs.drop 63)
termination_by l => l.length
decreasing_by simp [List.length_drop]; omega

/-- Split a byte list into 4-byte groups; the tail xs.drop 3 is the drop of
4 elements from the whole list. -/
def chunks4 : List Nat → List (List Nat)
  | [] => []
  | x :: xs => (x :: xs).take 4 :: chunks4 (xs.drop 3)
termination_by l => l.length
decreasing_by simp [List.length_drop]; omega

/-- Message-schedule extension: prepend count new words to the reversed word
list, each the left rotation by one of the xor of the words 3, 8, 14 and 16
places back. -/
def sha1Extend (revw : List Nat) : Nat → List Nat
  | 0 => revw
  | k + 1 =>
    let x := (revw.getD 2 0) ^^^ (revw.getD 7 0) ^^^ (revw.getD 13 0) ^^^ (revw.getD 15 0)
    sha1Extend (rotl32 x 1 :: revw) k

/-- Round function of SHA-1 for round t. -/
def sha1F (t b c d : Nat) : Nat :=
  if t < 20 then (b &&& c) ||| ((b ^^^ 4294967295) &&& d)
  else if t < 40 then b ^^^ c ^^^ d
  else if t < 60 then (b &&& c) ||| (b &&& d) ||| (c &&& d)
  else b ^^^ c ^^^ d

/-- Round constant of SHA-1 for round t. -/
def sha1K (t : Nat) : Nat :=
  if t < 20 then 1518500249
  else if t < 40 then 1859775393
  else if t < 60 then 2400959708
  else 3395469782

/-- One SHA-1 block compression. -/
def sha1Compress (h : Nat × Nat × Nat × Nat × Nat) (block : List Nat) :
    Nat × Nat × Nat × Nat × Nat :=
  let ws := (sha1Extend ((chunks4 block).map wordBE).reverse 64).reverse
  let (h0, h1, h2, h3, h4) := h
  let st := ws.enum.foldl
    (fun st tw =>
      let (a, b, c, d, e) := st
      let temp := (rotl32 a 5 + sha1F tw.1 b c d + e + tw.2 + sha1K tw.1) % w32
      (temp, a, rotl32 b 30, c, d))
    (h0, h1, h2, h3, h4)
  let (a, b, c, d, e) := st
  ((h0 + a) % w32, (h1 + b) % w32, (h2 + c) % w32, (h3 + d) % w32, (h4 + e) % w32)

/-- SHA-1 digest (20 bytes) of a byte list. -/
def sha1 (msg : List Nat) : List Nat :=
  let h := (chunks64 (sha1Pad msg)).foldl sha1Compress
    (1732584193, 4023233417, 2562383102, 271733878, 3285377520)
  let (h0, h1, h2, h3, h4) := h
  beBytes 4 h0 ++ beBytes 4 h1 ++ beBytes 4 h2 ++ beBytes 4 h3 ++ beBytes 4 h4

/-- Lower-case hex digit. -/
def hexDigit (n : Nat) : Char :=
  if n < 10 then Char.ofNat (48 + n) else Char.ofNat (87 + n)

/-- Lower-case hex encoding of a byte list, as encoding/hex does. -/
def hexEncode (bytes : List Nat) : List Char :=
  bytes.foldr (fun b acc => hexDigit (b / 16) :: hexDigit (b % 16) :: acc) []

/-- Bytes of a Go string; the paths and decimal strings hashed here are ASCII,
where the Go byte values equal the character code points. -/
def strBytes (s : String) : List Nat := s.data.map Char.toNat

/-- Go strconv.Itoa: decimal digits, with a leading minus sign when negative. -/
def goItoa (i : Int) : String :=
  if i < 0 then String.mk ('-' :: Nat.toDigits 10 i.natAbs)
  else String.mk (Nat.toDigits 10 i.toNat)

/-! ### Data model: pkg/inator/types.go -/

/-- LogStatement from types.go.  Severity is the int32 ordinal (Info 0,
Warning 1, Error 2, Fatal 3); LineNumber is a Go int. -/
structure LogStatement where
  SourceFile : String
  LineNumber : Int
  Severity : Int
  Verbosity : Option Int
  FormatString : String
deriving DecidableEq, Repr

/-- ParsedLog from types.go. -/
structure ParsedLog where
  SourceFile : String
  LineNumber : Int
  Severity : Int
  Message : String
deriving DecidableEq, Repr

/-- ShortSourceFile from types.go:
filepath.Join(filepath.Base(filepath.Dir(s.SourceFile)), filepath.Base(s.SourceFile)). -/
def LogStatement.ShortSourceFile (s : LogStatement) : String :=
  String.mk (goJoin2 (goBase (goDir s.SourceFile.data)) (goBase s.SourceFile.data))

/-- Fingerprint of a LogStatement from types.go: hex SHA-1 of the short source
file, the decimal line number and the decimal severity, written in that order
with no separator (the three h.Write calls hash the concatenation). -/
def LogStatement.Fingerprint (s : LogStatement) : String :=
  String.mk (hexEncode (sha1
    (strBytes s.ShortSourceFile ++ strBytes (goItoa s.LineNumber) ++
      strBytes (goItoa s.Severity))))

/-- Fingerprint of a ParsedLog from types.go: identical computation, with the
source file used verbatim. -/
def ParsedLog.Fingerprint (p : ParsedLog) : String :=
  String.mk (hexEncode (sha1
    (strBytes p.SourceFile ++ strBytes (goItoa p.LineNumber) ++
      strBytes (goItoa p.Severity))))

/-- C1: for every LogStatement s and ParsedLog p, if the short path of s
equals the source file of p, the line numbers agree and the severities agree,
then the two fingerprint functions agree. -/
theorem fingerprint_agreement (s : LogStatement) (p : ParsedLog)
    (h1 : s.ShortSourceFile = p.SourceFile)
    (h2 : s.LineNumber = p.LineNumber)
    (h3 : s.Severity = p.Severity) :
    s.Fingerprint = p.Fingerprint := by
  unfold LogStatement.Fingerprint ParsedLog.Fingerprint
  rw [h1, h2, h3]

/-- Call-site of scenario S1 of the specification. -/
def sampleStatement : LogStatement :=
  ⟨"k8s.io/apiserver/pkg/util/flowcontrol/fairqueuing/queueset/queueset.go",
    488, 0, none, "Sample"⟩

/-- Runtime record matching sampleStatement. -/
def sampleParsed : ParsedLog :=
  ⟨"queueset/queueset.go", 488, 0, "Sample Text"⟩

/-- Witness for C1 at the records of scenario S1. -/
theorem fingerprint_agreement_witness :
    (sampleStatement.ShortSourceFile = sampleParsed.SourceFile ∧
      sampleStatement.LineNumber = sampleParsed.LineNumber ∧
      sampleStatement.Severity = sampleParsed.Severity) ∧
    sampleStatement.Fingerprint = sampleParsed.Fingerprint :=
  ⟨⟨by decide, rfl, rfl⟩,
    fingerprint_agreement sampleStatement sampleParsed (by decide) rfl rfl⟩

/-! ### ParseLine: pkg/inator/match.go, lines 16-175

The parser walks the 30-byte fixed prefix and then the variable tail.  Each
Go loop is a structural recursion with a fuel argument equal to the exact
number of remaining loop iterations, so the loop index and fuel are in
lock-step.  Index expressions whose bounds are guaranteed by checks the code
has already made are read with getD; slice expressions, whose bounds the code
does not guarantee, go through goSliceC, which models the Go slice-bounds
panic. -/

/-- Go slice expression line[a:b] with non-negative bounds: panics unless
a ≤ b ≤ len. -/
def goSliceC (line : List Char) (a b : Nat) : Except GoPanic (List Char) :=
  if a ≤ b ∧ b ≤ line.length then .ok ((line.drop a).take (b - a)) else .error .sliceBounds

/-- Character range check lo ≤ c ≤ hi. -/
def charBetween (c lo hi : Char) : Bool := decide (lo ≤ c) && decide (c ≤ hi)

/-- Severity ordinal of the leading character (match.go lines 31-43). -/
def sevOf (c : Char) : Option Int :=
  if c == 'I' then some 0
  else if c == 'W' then some 1
  else if c == 'E' then some 2
  else if c == 'F' then some 3
  else none

/-- Month and day digit checks on line[1:5] (match.go lines 46-58). -/
def mmddOk (line : List Char) : Bool :=
  charBetween (line.getD 1 'x') '0' '1' && charBetween (line.getD 2 'x') '0' '9' &&
  charBetween (line.getD 3 'x') '0' '3' && charBetween (line.getD 4 'x') '0' '9'

/-- Time-of-day checks on line[6:21] (match.go lines 61-93). -/
def hhmmssOk (line : List Char) : Bool :=
  charBetween (line.getD 6 'x') '0' '2' && charBetween (line.getD 7 'x') '0' '9' &&
  line.getD 8 'x' == ':' &&
  charBetween (line.getD 9 'x') '0' '5' && charBetween (line.getD 10 'x') '0' '9' &&
  line.getD 11 'x' == ':' &&
  charBetween (line.getD 12 'x') '0' '5' && charBetween (line.getD 13 'x') '0' '9' &&
  line.getD 14 'x' == '.' &&
  (List.range 6).all (fun i => charBetween (line.getD (15 + i) 'x') '0' '9')

/-- Thread-id loop over line[22:29] (match.go lines 96-109): leading spaces,
then digits only once a non-space has been seen. -/
def threadLoop : List Char → Bool → Bool
  | [], _ => true
  | c :: rest, matchSpaces =>
    if matchSpaces && c == ' ' then threadLoop rest true
    else if charBetween c '0' '9' then threadLoop rest false
    else false

/-- Path characters of the FILENAME loop: dot, dash, underscore, letters and
digits (match.go lines 119-121). -/
def pathCharB (c : Char) : Bool :=
  c == '.' || c == '-' || c == '_' ||
  charBetween c 'a' 'z' || charBetween c 'A' 'Z' || charBetween c '0' '9'

/-- The FILENAME loop (match.go lines 116-131): index runs while
index < len-1; a path character continues, a slash records dirEnd and
fileStart, a colon records fileEnd and breaks, anything else breaks.  The
result is (index, dirEnd, fileStart, fileEnd); fuel is exactly the number of
remaining iterations (len-1 minus the current index). -/
def scanPath (line : List Char) : Nat → Nat → Nat → Nat → Nat → Nat × Nat × Nat × Nat
  | 0, index, de, fs, fe => (index, de, fs, fe)
  | fuel + 1, index, de, fs, fe =>
    if pathCharB (line.getD index 'x') then scanPath line fuel (index + 1) de fs fe
    else if line.getD index 'x' == '/' then scanPath line fuel (index + 1) index (index + 1) fe
    else if line.getD index 'x' == ':' then (index, de, fs, index)
    else (index, de, fs, fe)

/-- The LINENUMBER loop (match.go lines 141-151): digits continue, a closing
bracket records lineNumEnd and breaks, anything else breaks.  The result is
(index, lineNumEnd). -/
def scanNum (line : List Char) : Nat → Nat → Nat → Nat × Nat
  | 0, index, ne => (index, ne)
  | fuel + 1, index, ne =>
    if charBetween (line.getD index 'x') '0' '9' then scanNum line fuel (index + 1) ne
    else if line.getD index 'x' == ']' then (index, index)
    else (index, ne)

/-- Decimal value of a digit string. -/
def digitsVal (cs : List Char) : Nat := cs.foldl (fun n c => n * 10 + (c.toNat - 48)) 0

/-- Largest int64 value. -/
def maxInt64 : Int := 9223372036854775807

/-- Go strconv.Atoi restricted to the non-empty all-digit strings ParseLine
passes it: fewer than 19 digits take the fast path and cannot overflow;
otherwise ParseInt computes the value and, on overflow past the largest
int64, returns that largest value together with a range error.  The Bool is
true when there was no error. -/
def goAtoiDigits (cs : List Char) : Int × Bool :=
  if cs.length < 19 then ((digitsVal cs : Int), true)
  else if (digitsVal cs : Int) ≤ maxInt64 then ((digitsVal cs : Int), true)
  else (maxInt64, false)

/-- ParseLine from match.go lines 16-175.  A rejected line yields ok none
(the Go ok=false return); a Go run-time panic yields an error.  Note the
faithful modelling of lines 167-173: the error result of Atoi is ignored,
because the Go code's ok=false on that error is unconditionally overwritten
by ok=true before returning, so the (possibly clamped) value is kept. -/
def ParseLine (line : List Char) : Except GoPanic (Option ParsedLog) :=
  let n := line.length
  if n ≤ 29 then .ok none
  else if !(line.getD 5 'x' == ' ' && line.getD 21 'x' == ' ' && line.getD 29 'x' == ' ') then
    .ok none
  else
    match sevOf (line.getD 0 'x') with
    | none => .ok none
    | some sev =>
      if !mmddOk line then .ok none
      else if !hhmmssOk line then .ok none
      else if !threadLoop ((line.drop 22).take 7) true then .ok none
      else
        let r1 := scanPath line (n - 1 - 30) 30 0 0 0
        let index1 := r1.1
        let de := r1.2.1
        let fs := r1.2.2.1
        let fe := r1.2.2.2
        if index1 = n - 1 ∨ (de : Int) - 30 < 1 ∨ fs ≠ de + 1 ∨ (fe : Int) - (fs : Int) < 1 then
          .ok none
        else
          let lns := index1 + 1
          let r2 := scanNum line (n - 1 - lns) lns 0
          let index2 := r2.1
          let lne := r2.2
          if index2 = n - 1 ∨ (lne : Int) - (lns : Int) < 1 then .ok none
          else if !(line.getD (index2 + 1) 'x' == ' ') then .ok none
          else
            match goSliceC line lns lne with
            | .error e => .error e
            | .ok numcs =>
              match goSliceC line 30 fe with
              | .error e => .error e
              | .ok srccs =>
                match goSliceC line (index2 + 2) (n - 1) with
                | .error e => .error e
                | .ok msgcs =>
                  .ok (some ⟨String.mk srccs, (goAtoiDigits numcs).1, sev, String.mk msgcs⟩)

/-- Scenario S1 archive line of the specification. -/
def sampleLogLine : List Char :=
  "I1105 13:30:39.614388  739568 queueset/queueset.go:488] Sample Text".data

/-- Line whose path-and-line tail ends in a bracket followed by a space as
the final byte, so messageStart = len and messageEnd = len-1. -/
def trailingSpaceLine : List Char := "I1105 13:30:39.614388  739568 a/b:1] ".data

/-- C4: ParseLine is not total on the Go side.  On a line whose final byte is
the space right after the closing bracket, messageStart exceeds messageEnd
and the message slice expression line[messageStart:messageEnd] panics with a
slice-bounds violation instead of returning ok=false. -/
theorem parseLine_panics_on_trailing_space :
    ParseLine trailingSpaceLine = .error .sliceBounds := by decide

/-- Line whose path portion holds two slashes. -/
def twoSlashLine : List Char :=
  "I1105 13:30:39.614388  739568 a/b/c:12] hi".data

/-- C5 counterexample: a line whose path portion contains two slashes is
accepted, not rejected; the parser keeps the whole a/b/c path (the last slash
acts as the separator), so the claim that two or more slashes are rejected is
false at this input. -/
theorem parseLine_accepts_two_slashes :
    ParseLine twoSlashLine = .ok (some ⟨"a/b/c", 12, 0, "h"⟩) := by decide

/-- Line whose line-number digit run overflows int64. -/
def overflowLine : List Char :=
  "I1105 13:30:39.614388  739568 a/b:99999999999999999999] X!".data

/-- C6: a line-number digit run that overflows int64 is not dropped.  Atoi
reports a range error and the code assigns ok=false, but then unconditionally
overwrites it with ok=true, so the record is emitted with the clamped line
number 9223372036854775807. -/
theorem parseLine_keeps_clamped_line_number :
    ParseLine overflowLine = .ok (some ⟨"a/b", 9223372036854775807, 0, "X"⟩) := by decide

/-- A slash is not a path character. -/
theorem pathCharB_ne_slash {c : Char} (h : pathCharB c = true) : c ≠ '/' := by
  intro hc
  subst hc
  exact absurd h (by decide)

/-- Invariant of the FILENAME loop: the index is at or past the path start,
every character already consumed is a path character or a slash, and once a
slash has been seen, dirEnd is the position of the last slash seen with
fileStart immediately after it and no slash after it. -/
def PathInv (line : List Char) (i de fs : Nat) : Prop :=
  30 ≤ i ∧
  (∀ j, 30 ≤ j → j < i → pathCharB (line.getD j 'x') = true ∨ line.getD j 'x' = '/') ∧
  (de ≠ 0 → 30 ≤ de ∧ de < i ∧ fs = de + 1 ∧ line.getD de 'x' = '/' ∧
    ∀ j, de < j → j < i → line.getD j 'x' ≠ '/') ∧
  (de = 0 → fs = 0)

/-- The invariant is preserved when the loop consumes a path character. -/
theorem PathInv.step_path {line : List Char} {i de fs : Nat} (h : PathInv line i de fs)
    (hc : pathCharB (line.getD i 'x') = true) : PathInv line (i + 1) de fs := by
  obtain ⟨ha, hb, hd, he⟩ := h
  refine ⟨by omega, ?_, ?_, he⟩
  · intro j hj1 hj2
    rcases Nat.lt_or_ge j i with hj | hj
    · exact hb j hj1 hj
    · have hji : j = i := by omega
      subst hji
      exact Or.inl hc
  · intro hde
    obtain ⟨q1, q2, q3, q4, q5⟩ := hd hde
    refine ⟨q1, by omega, q3, q4, ?_⟩
    intro j hj1 hj2
    rcases Nat.lt_or_ge j i with hj | hj
    · exact q5 j hj1 hj
    · have hji : j = i := by omega
      subst hji
      exact pathCharB_ne_slash hc

/-- The invariant is preserved when the loop consumes a slash, which resets
dirEnd and fileStart. -/
theorem PathInv.step_slash {line : List Char} {i de fs : Nat} (h : PathInv line i de fs)
    (hc : line.getD i 'x' = '/') : PathInv line (i + 1) i (i + 1) := by
  obtain ⟨ha, hb, _, _⟩ := h
  refine ⟨by omega, ?_, ?_, ?_⟩
  · intro j hj1 hj2
    rcases Nat.lt_or_ge j i with hj | hj
    · exact hb j hj1 hj
    · have hji : j = i := by omega
      subst hji
      exact Or.inr hc
  · intro _
    exact ⟨ha, by omega, rfl, hc, by intro j hj1 hj2; omega⟩
  · intro hi0
    omega

/-- Soundness of the FILENAME loop: starting from an invariant state, either
fileEnd is returned untouched (the loop ran out or broke on an invalid
character) or the loop broke on a colon at the returned index with the
invariant holding there. -/
theorem scanPath_sound (line : List Char) : ∀ fuel i de fs fe0,
    PathInv line i de fs →
    ∀ i2 de2 fs2 fe2, scanPath line fuel i de fs fe0 = (i2, de2, fs2, fe2) →
    fe2 = fe0 ∨ (fe2 = i2 ∧ PathInv line i2 de2 fs2) := by
  intro fuel
  induction fuel with
  | zero =>
    intro i de fs fe0 hinv i2 de2 fs2 fe2 heq
    simp only [scanPath, Prod.mk.injEq] at heq
    left
    exact heq.2.2.2.symm
  | succ f ih =>
    intro i de fs fe0 hinv i2 de2 fs2 fe2 heq
    simp only [scanPath] at heq
    split at heq
    · exact ih (i + 1) de fs fe0 (hinv.step_path (by assumption)) i2 de2 fs2 fe2 heq
    · split at heq
      · rename_i hs
        exact ih (i + 1) i (i + 1) fe0 (hinv.step_slash (eq_of_beq hs)) i2 de2 fs2 fe2 heq
      · split at heq
        · simp only [Prod.mk.injEq] at heq
          obtain ⟨e1, e2, e3, e4⟩ := heq
          subst e1; subst e2; subst e3; subst e4
          exact Or.inr ⟨rfl, hinv⟩
        · simp only [Prod.mk.injEq] at heq
          left
          exact heq.2.2.2.symm

/-- Adjacent subslices of a list concatenate to the enclosing subslice. -/
theorem extract_append_extract {α : Type} (line : List α) (a b c : Nat) (h1 : a ≤ b) (h2 : b ≤ c) :
    (line.drop a).take (b - a) ++ (line.drop b).take (c - b) = (line.drop a).take (c - a) := by
  have hd : line.drop b = (line.drop a).drop (b - a) := by
    rw [List.drop_drop]
    congr 1
    omega
  rw [hd, ← List.take_add]
  congr 1
  omega

/-- A subslice starting at a valid index a begins with the element at a. -/
theorem extract_cons {α : Type} (line : List α) (d : α) (a b : Nat) (h1 : a < b)
    (h2 : a < line.length) :
    (line.drop a).take (b - a) = line.getD a d :: (line.drop (a + 1)).take (b - (a + 1)) := by
  rw [List.drop_eq_getElem_cons h2]
  have hba : b - a = (b - (a + 1)) + 1 := by omega
  rw [hba, List.take_succ_cons, List.getD_eq_getElem line d h2]

/-- Every member of a subslice is the element at some index in its range. -/
theorem mem_extract {α : Type} (line : List α) (d : α) (a b : Nat) (c : α)
    (h : c ∈ (line.drop a).take (b - a)) :
    ∃ j, a ≤ j ∧ j < b ∧ j < line.length ∧ line.getD j d = c := by
  obtain ⟨i, hi, hgi⟩ := List.mem_iff_getElem.mp h
  have hlen : i < b - a ∧ i < line.length - a := by
    simp [List.length_take, List.length_drop] at hi
    omega
  refine ⟨a + i, by omega, by omega, by omega, ?_⟩
  rw [List.getD_eq_getElem line d (by omega)]
  rw [← hgi]
  rw [List.getElem_take, List.getElem_drop]

/-- C5 (amended): ParseLine accepts the path portion only if it consists of
path characters and slashes, with at least one slash, a non-empty prefix
before the last slash, and a non-empty all-path-character filename between
the last slash and the colon.  Lines whose path portion has two or more
slashes can be accepted, the last slash acting as the separator. -/
theorem parseLine_path_structure (line : List Char) (p : ParsedLog)
    (h : ParseLine line = .ok (some p)) :
    ∃ d f : List Char, p.SourceFile.data = d ++ '/' :: f ∧ d ≠ [] ∧ f ≠ [] ∧
      (∀ c ∈ d, pathCharB c = true ∨ c = '/') ∧ (∀ c ∈ f, pathCharB c = true) := by
  unfold ParseLine at h
  rcases hsp : scanPath line (line.length - 1 - 30) 30 0 0 0 with ⟨i1, de, fs, fe⟩
  simp only [hsp] at h
  split at h
  · simp at h
  split at h
  · simp at h
  split at h
  · simp at h
  split at h
  · simp at h
  split at h
  · simp at h
  split at h
  · simp at h
  split at h
  · simp at h
  split at h
  · simp at h
  split at h
  · simp at h
  split at h
  · simp at h
  split at h
  · simp at h
  split at h
  · simp at h
  rename_i sevv hsev hmmdd hhhmm hthr hrej1 hrej2 hspace xnum numcs hnumok xsrc srccs hsrcok xmsg msgcs hmsgok
  have hp := Option.some.inj (Except.ok.inj h)
  subst hp
  unfold goSliceC at hsrcok
  split at hsrcok
  case isFalse => simp at hsrcok
  rename_i hbound
  have hsrc : (line.drop 30).take (fe - 30) = srccs := Except.ok.inj hsrcok
  subst hsrc
  push_neg at hrej1
  obtain ⟨hne, hde31, hfs, hfe⟩ := hrej1
  have hde : 31 ≤ de := by omega
  have hfefs : fs + 1 ≤ fe := by omega
  have hinv0 : PathInv line 30 0 0 :=
    ⟨Nat.le_refl 30, fun j hj1 hj2 => absurd hj2 (by omega), fun hde0 => absurd rfl hde0,
      fun _ => rfl⟩
  have hsound := scanPath_sound line (line.length - 1 - 30) 30 0 0 0 hinv0 i1 de fs fe hsp
  have hfe0 : fe ≠ 0 := by omega
  obtain ⟨hfei, hinv⟩ := hsound.resolve_left hfe0
  obtain ⟨hi30, hchars, hdeb, hrest⟩ := hinv
  obtain ⟨hde30, hdei, hfsde, hslash, hnoslash⟩ := hdeb (by omega)
  have hdefe : de < fe := by omega
  have hfelen : fe ≤ line.length := hbound.2
  refine ⟨(line.drop 30).take (de - 30), (line.drop (de + 1)).take (fe - (de + 1)),
    ?_, ?_, ?_, ?_, ?_⟩
  · show (line.drop 30).take (fe - 30) = _
    rw [← extract_append_extract line 30 de fe (by omega) (by omega)]
    rw [extract_cons line 'x' de fe (by omega) (by omega)]
    rw [hslash]
  · exact List.length_pos.mp (by simp [List.length_take, List.length_drop]; omega)
  · exact List.length_pos.mp (by simp [List.length_take, List.length_drop]; omega)
  · intro c hc
    obtain ⟨j, hj1, hj2, hj3, hj4⟩ := mem_extract line 'x' 30 de c hc
    rw [← hj4]
    exact hchars j hj1 (by omega)
  · intro c hc
    obtain ⟨j, hj1, hj2, hj3, hj4⟩ := mem_extract line 'x' (de + 1) fe c hc
    rcases hchars j (by omega) (by omega) with hpc | hsl
    · rw [← hj4]
      exact hpc
    · exact absurd hsl (hnoslash j (by omega) (by omega))

/-! ### ReadLines chunking: pkg/fast/reader.go, lines 11-39

The chunk boundaries are computed over the memory-mapped byte buffer with Go
int arithmetic, so positions are modelled as Int: on an empty buffer the
clamp target len-1 is -1.  Go index and slice expressions go through checked
helpers that model the run-time panic. -/

/-- Go slice expression buf[a:b] over a byte list with Go int bounds: panics
unless 0 ≤ a ≤ b ≤ len. -/
def goSliceB (buf : List UInt8) (a b : Int) : Except GoPanic (List UInt8) :=
  if 0 ≤ a ∧ a ≤ b ∧ b ≤ (buf.length : Int) then
    .ok ((buf.drop a.toNat).take (b - a).toNat)
  else .error .sliceBounds

/-- The newline-seeking loop of ReadLines (reader.go line 33): advance while
seekPos ≤ len-1 and the byte at seekPos is not a newline.  The bound test is
checked first, then the index expression, which panics when seekPos is
negative, exactly as in Go (reachable when the mapped buffer is empty, where
len-1 is -1).  fuel bounds the iterations; len+1 suffices from any
non-negative start. -/
def scanNl (buf : List UInt8) : Nat → Int → Except GoPanic Int
  | 0, pos => .ok pos
  | fuel + 1, pos =>
    if pos ≤ (buf.length : Int) - 1 then
      if 0 ≤ pos then
        if buf.getD pos.toNat 0 ≠ 10 then scanNl buf fuel (pos + 1) else .ok pos
      else .error .indexOutOfRange
    else .ok pos

/-- Body of the chunk loop of ReadLines (reader.go lines 28-39): remember
startByte, advance seekPos by chunkSize, clamp to len-1, seek the next
newline, step one past it unless at len-1, and emit buf[startByte:seekPos]
together with the new seekPos. -/
def chunkStep (buf : List UInt8) (chunkSize seekPos : Int) :
    Except GoPanic (List UInt8 × Int) :=
  let s1 := seekPos + chunkSize
  let s2 := if s1 > (buf.length : Int) - 1 then (buf.length : Int) - 1 else s1
  match scanNl buf (buf.length + 1) s2 with
  | .error e => .error e
  | .ok s3 =>
    let s4 := if s3 < (buf.length : Int) - 1 then s3 + 1 else s3
    match goSliceB buf seekPos s4 with
    | .error e => .error e
    | .ok chunk => .ok (chunk, s4)

/-- The chunk loop of ReadLines (reader.go lines 27-53), collecting the byte
slice handed to each reader goroutine. -/
def chunkLoop (buf : List UInt8) (chunkSize : Int) :
    Nat → Int → Except GoPanic (List (List UInt8))
  | 0, _ => .ok []
  | i + 1, seekPos =>
    match chunkStep buf chunkSize seekPos with
    | .error e => .error e
    | .ok (chunk, s4) =>
      match chunkLoop buf chunkSize i s4 with
      | .error e => .error e
      | .ok rest => .ok (chunk :: rest)

/-- Chunk computation of ReadLines (reader.go lines 22-39): chunkSize is the
integer division of the buffer length by the channel count, a Go
division-by-zero panic when there are no channels. -/
def ReadLinesChunks (buf : List UInt8) (g : Nat) : Except GoPanic (List (List UInt8)) :=
  if g = 0 then .error .divByZero
  else chunkLoop buf ((buf.length : Int) / (g : Int)) g 0

/-- C9: on an empty file the chunker does not produce G empty chunks.  The
clamp sets seekPos to len-1 = -1, the loop guard -1 ≤ -1 passes, and the
index expression buf[-1] panics.  (On Linux the zero-length mmap already
fails with EINVAL before this code runs, so ReadLines reports an error; on
either reading, no chunks and no lines are produced.) -/
theorem readLinesChunks_empty_file_panics (g : Nat) :
    ReadLinesChunks [] (g + 1) = .error .indexOutOfRange := by
  unfold ReadLinesChunks
  rw [if_neg (by omega)]
  have hz : ((([] : List UInt8).length : Int) / ((g + 1 : Nat) : Int)) = 0 := by
    simp
  rw [hz]
  unfold chunkLoop chunkStep
  norm_num [scanNl]

/-- C3 counterexample: on the two-byte file of one byte and a newline, with
one chunk, the loop stops at the final newline without including it, so the
concatenated output misses the final byte of the file. -/
theorem chunker_drops_final_newline :
    ReadLinesChunks [97, 10] 1 = .ok [[97]] ∧
    ¬ (([[97]] : List (List UInt8)).flatten = [97, 10]) := by decide

/-- Record that ParseLine produces from sampleLogLine; the Go code drops the
final byte of the message. -/
def sampleScanned : ParsedLog := ⟨"queueset/queueset.go", 488, 0, "Sample Tex"⟩

/-- Witness for C5 at the scenario S1 line. -/
theorem parseLine_path_structure_witness :
    ParseLine sampleLogLine = .ok (some sampleScanned) ∧
    (∃ d f : List Char, sampleScanned.SourceFile.data = d ++ '/' :: f ∧ d ≠ [] ∧ f ≠ [] ∧
      (∀ c ∈ d, pathCharB c = true ∨ c = '/') ∧ (∀ c ∈ f, pathCharB c = true)) :=
  ⟨by decide, parseLine_path_structure sampleLogLine sampleScanned (by decide)⟩

/-- End position every complete chunk run reaches: the buffer length, less
one when the final byte is a newline, which the loop never steps past. -/
def endCap (buf : List UInt8) : Nat :=
  if buf.getD (buf.length - 1) 0 = 10 then buf.length - 1 else buf.length

/-- Newline discipline of the produced chunks: any chunk that is followed by
a later non-empty chunk ends with a newline byte. -/
def ChunksNlProp (chunks : List (List UInt8)) : Prop :=
  ∀ i j, i < j → chunks.getD j [] ≠ [] → (chunks.getD i []).getLast? = some 10

/-- The newline scan returns its start position unchanged once past the last
index. -/
theorem scanNl_exit (buf : List UInt8) (fuel : Nat) (pos : Int)
    (h : ¬ pos ≤ (buf.length : Int) - 1) : scanNl buf fuel pos = .ok pos := by
  cases fuel with
  | zero => rfl
  | succ f =>
    unfold scanNl
    rw [if_neg h]

/-- Behaviour of the newline scan from an in-range start: with sufficient
fuel it succeeds, lands at or after the start, at or before the length, on a
newline when it stopped before the end, and skips no newline. -/
theorem scanNl_spec (buf : List UInt8) : ∀ fuel : Nat, ∀ pos : Int,
    0 ≤ pos → pos ≤ (buf.length : Int) - 1 → (buf.length : Int) - pos < (fuel : Int) →
    ∃ j : Int, scanNl buf fuel pos = .ok j ∧ pos ≤ j ∧ j ≤ (buf.length : Int) ∧
      (j ≤ (buf.length : Int) - 1 → buf.getD j.toNat 0 = 10) ∧
      (∀ k : Int, pos ≤ k → k < j → buf.getD k.toNat 0 ≠ 10) := by
  intro fuel
  induction fuel with
  | zero =>
    intro pos h0 h1 h2
    exact absurd h2 (by push_cast; omega)
  | succ f ih =>
    intro pos h0 h1 h2
    unfold scanNl
    rw [if_pos h1, if_pos h0]
    by_cases hb : buf.getD pos.toNat 0 = 10
    · rw [if_neg (by simpa using hb)]
      exact ⟨pos, rfl, le_refl pos, by omega, fun _ => hb, fun k hk1 hk2 => absurd hk2 (by omega)⟩
    · rw [if_pos hb]
      by_cases hend : pos + 1 ≤ (buf.length : Int) - 1
      · obtain ⟨j, hjeq, hj1, hj2, hj3, hj4⟩ := ih (pos + 1) (by omega) hend (by push_cast at h2 ⊢; omega)
        refine ⟨j, hjeq, by omega, hj2, hj3, ?_⟩
        intro k hk1 hk2
        by_cases hkp : k = pos
        · subst hkp
          exact hb
        · exact hj4 k (by omega) hk2
      · have hexit : scanNl buf f (pos + 1) = .ok (pos + 1) := scanNl_exit buf f (pos + 1) hend
        refine ⟨pos + 1, hexit, by omega, by omega, fun hc => absurd hc (by omega), ?_⟩
        intro k hk1 hk2
        have hkp : k = pos := by omega
        subst hkp
        exact hb


/-- A slice expression with ordered in-range bounds succeeds. -/
theorem goSliceB_ok (buf : List UInt8) (a b : Int) (h0 : 0 ≤ a) (h1 : a ≤ b)
    (h2 : b ≤ (buf.length : Int)) :
    goSliceB buf a b = .ok ((buf.drop a.toNat).take (b - a).toNat) := by
  unfold goSliceB
  rw [if_pos ⟨h0, h1, h2⟩]

/-- The last element of a non-empty subslice is the element before its upper
bound. -/
theorem extract_getLast {α : Type} (l : List α) (d : α) (a b : Nat) (h1 : a < b)
    (h2 : b ≤ l.length) :
    ((l.drop a).take (b - a)).getLast? = some (l.getD (b - 1) d) := by
  have hsplit : (l.drop a).take (b - a) = (l.drop a).take ((b - 1) - a) ++ [l.getD (b - 1) d] := by
    rw [← extract_append_extract l a (b - 1) b (by omega) (by omega)]
    congr 1
    rw [extract_cons l d (b - 1) b (by omega) (by omega)]
    have e0 : b - (b - 1 + 1) = 0 := by omega
    rw [e0]
    simp
  rw [hsplit, List.getLast?_concat]

/-- One chunk-loop iteration from a position at or before endCap: it emits
the subslice up to a new position s4 at or before endCap, and either s4 is
endCap (the loop has reached the end of the usable buffer) or the iteration
consumed at least chunkSize+1 bytes and its chunk ends with a newline. -/
theorem chunkStep_spec (buf : List UInt8) (hbuf : buf ≠ []) (cs : Int) (hcs : 0 ≤ cs)
    (seek : Nat) (hseek : seek ≤ endCap buf) :
    ∃ s4 : Nat, chunkStep buf cs (seek : Int) = .ok ((buf.drop seek).take (s4 - seek), (s4 : Int)) ∧
      seek ≤ s4 ∧ s4 ≤ endCap buf ∧
      (s4 = endCap buf ∨
        ((seek : Int) + cs + 1 ≤ (s4 : Int) ∧
          ((buf.drop seek).take (s4 - seek)).getLast? = some 10)) := by
  have hL : 1 ≤ buf.length := List.length_pos.mpr hbuf
  have hcap1 : endCap buf ≤ buf.length := by unfold endCap; split <;> omega
  have hcap2 : buf.length - 1 ≤ endCap buf := by unfold endCap; split <;> omega
  unfold chunkStep
  have hs2a : (0:Int) ≤
      (if (seek:Int) + cs > (buf.length:Int) - 1 then (buf.length:Int) - 1 else (seek:Int) + cs) := by
    split <;> omega
  have hs2b : (if (seek:Int) + cs > (buf.length:Int) - 1 then (buf.length:Int) - 1
      else (seek:Int) + cs) ≤ (buf.length:Int) - 1 := by
    split <;> omega
  obtain ⟨j, hjeq, hj1, hj2, hj3, hj4⟩ := scanNl_spec buf (buf.length + 1)
    (if (seek:Int) + cs > (buf.length:Int) - 1 then (buf.length:Int) - 1 else (seek:Int) + cs)
    hs2a hs2b (by push_cast; omega)
  simp only [hjeq]
  have hj0 : (0:Int) ≤ j := le_trans hs2a hj1
  rcases lt_trichotomy j ((buf.length : Int) - 1) with hjc | hjc | hjc
  · have hcapF : ¬ ((seek:Int) + cs > (buf.length:Int) - 1) := by
      intro hcap
      rw [if_pos hcap] at hj1
      omega
    rw [if_neg hcapF] at hj1
    have hb10 : buf.getD j.toNat 0 = 10 := hj3 (by omega)
    rw [if_pos hjc]
    have hso := goSliceB_ok buf (seek:Int) (j+1) (by omega) (by omega) (by omega)
    rw [hso]
    refine ⟨(j+1).toNat, ?_, by omega, by omega, Or.inr ⟨by omega, ?_⟩⟩
    · have e1 : ((seek:Int)).toNat = seek := by omega
      have e2 : ((j + 1) - (seek:Int)).toNat = (j+1).toNat - seek := by omega
      have e3 : (((j+1).toNat : Nat) : Int) = j + 1 := by omega
      rw [e1, e2, e3]
    · rw [extract_getLast buf 0 seek ((j+1).toNat) (by omega) (by omega)]
      have e4 : (j+1).toNat - 1 = j.toNat := by omega
      rw [e4, hb10]
  · have hb10 : buf.getD j.toNat 0 = 10 := hj3 (by omega)
    have hlast : buf.getD (buf.length - 1) 0 = 10 := by
      have e5 : j.toNat = buf.length - 1 := by omega
      rw [← e5]
      exact hb10
    have hec : endCap buf = buf.length - 1 := by unfold endCap; rw [if_pos hlast]
    rw [if_neg (by omega : ¬ j < (buf.length:Int) - 1)]
    have hso := goSliceB_ok buf (seek:Int) j (by omega) (by omega) (by omega)
    rw [hso]
    refine ⟨j.toNat, ?_, by omega, by omega, Or.inl (by omega)⟩
    have e1 : ((seek:Int)).toNat = seek := by omega
    have e2 : (j - (seek:Int)).toNat = j.toNat - seek := by omega
    have e3 : ((j.toNat : Nat) : Int) = j := by omega
    rw [e1, e2, e3]
  · have hjL : j = (buf.length : Int) := by omega
    have hnl : buf.getD (buf.length - 1) 0 ≠ 10 := by
      have e5 : ((buf.length : Int) - 1).toNat = buf.length - 1 := by omega
      have h4 := hj4 ((buf.length : Int) - 1) (by omega) (by omega)
      rwa [e5] at h4
    have hec : endCap buf = buf.length := by unfold endCap; rw [if_neg hnl]
    rw [if_neg (by omega : ¬ j < (buf.length:Int) - 1)]
    have hso := goSliceB_ok buf (seek:Int) j (by omega) (by omega) (by omega)
    rw [hso]
    refine ⟨j.toNat, ?_, by omega, by omega, Or.inl (by omega)⟩
    have e1 : ((seek:Int)).toNat = seek := by omega
    have e2 : (j - (seek:Int)).toNat = j.toNat - seek := by omega
    have e3 : ((j.toNat : Nat) : Int) = j := by omega
    rw [e1, e2, e3]

/-- Reading any position of an all-empty chunk list gives the empty chunk. -/
theorem getD_all_nil (rest : List (List UInt8)) (hall : ∀ l ∈ rest, l = []) (j : Nat) :
    rest.getD j [] = [] := by
  rcases Nat.lt_or_ge j rest.length with hlt | hge
  · rw [List.getD_eq_getElem rest [] hlt]
    exact hall _ (List.getElem_mem hlt)
  · simp [List.getD_eq_getElem?_getD, List.getElem?_eq_none hge]

/-- The newline discipline extends over a cons when the head chunk ends with
a newline or everything after it is empty. -/
theorem chunksNl_cons (c : List UInt8) (rest : List (List UInt8))
    (h1 : ChunksNlProp rest)
    (h2 : (∀ l ∈ rest, l = []) ∨ c.getLast? = some 10) :
    ChunksNlProp (c :: rest) := by
  intro i j hij hj
  cases j with
  | zero => omega
  | succ j2 =>
    have hj2 : rest.getD j2 [] ≠ [] := by simpa [List.getD_cons_succ] using hj
    cases i with
    | zero =>
      rcases h2 with hall | hc
      · exact absurd (getD_all_nil rest hall j2) hj2
      · simpa using hc
    | succ i2 =>
      simpa [List.getD_cons_succ] using h1 i2 j2 (by omega) hj2

/-- Running n chunk-loop iterations from a position at or before endCap
succeeds, produces n chunks that exactly cover the bytes from the start
position to some final position, which reaches endCap once n·(chunkSize+1)
does, and the chunks obey the newline discipline. -/
theorem chunkLoop_run (buf : List UInt8) (hbuf : buf ≠ []) (cs : Int) (hcs : 0 ≤ cs) :
    ∀ n : Nat, ∀ seek : Nat, seek ≤ endCap buf →
    ∃ chunks : List (List UInt8), ∃ fin : Nat,
      chunkLoop buf cs n (seek : Int) = .ok chunks ∧
      chunks.length = n ∧
      seek ≤ fin ∧ fin ≤ endCap buf ∧
      (fin = endCap buf ∨ (seek : Int) + (n : Int) * (cs + 1) ≤ (fin : Int)) ∧
      chunks.flatten = (buf.drop seek).take (fin - seek) ∧
      ChunksNlProp chunks := by
  intro n
  induction n with
  | zero =>
    intro seek hseek
    refine ⟨[], seek, rfl, rfl, le_refl seek, hseek, Or.inr (by push_cast; omega), ?_, ?_⟩
    · simp [Nat.sub_self]
    · intro i j hij hj
      exact absurd rfl hj
  | succ n ih =>
    intro seek hseek
    obtain ⟨s4, hstep, hs1, hs2, hs3⟩ := chunkStep_spec buf hbuf cs hcs seek hseek
    obtain ⟨rest, fin, hloop, hlen, hf1, hf2, hf3, hjoin, hnl⟩ := ih s4 hs2
    refine ⟨(buf.drop seek).take (s4 - seek) :: rest, fin, ?_, by simp [hlen], by omega, hf2,
      ?_, ?_, ?_⟩
    · simp only [chunkLoop, hstep, hloop]
    · rcases hf3 with hA | hB
      · exact Or.inl hA
      · rcases hs3 with hsA | ⟨hsB, _⟩
        · left
          omega
        · right
          have hx : ((n + 1 : Nat) : Int) * (cs + 1) = (n : Int) * (cs + 1) + (cs + 1) := by
            push_cast
            ring
          rw [hx]
          linarith
    · rw [List.flatten_cons, hjoin]
      exact extract_append_extract buf seek s4 fin hs1 hf1
    · apply chunksNl_cons _ _ hnl
      rcases hs3 with hsA | ⟨_, hlast⟩
      · left
        have hfin : fin = s4 := by omega
        have hjn : rest.flatten = [] := by
          rw [hjoin, hfin]
          simp [Nat.sub_self]
        exact List.flatten_eq_nil_iff.mp hjn
      · exact Or.inr hlast

/-- The last element of a non-empty list as a getD read. -/
theorem getLast_eq_getD (buf : List UInt8) (hbuf : buf ≠ []) :
    buf.getLast? = some (buf.getD (buf.length - 1) 0) := by
  have hL : 1 ≤ buf.length := List.length_pos.mpr hbuf
  rw [List.getLast?_eq_getElem?, List.getElem?_eq_getElem (by omega)]
  rw [List.getD_eq_getElem buf 0 (by omega)]

/-- C3 (amended): for a non-empty file and any chunk count G = g+1, the
chunker succeeds with exactly G chunks whose concatenation is the file bytes
except that a final newline byte is dropped, and every chunk followed by a
later non-empty chunk ends with a newline.  The claimed exact coverage and
the claimed newline ending of every non-last chunk fail only by that final
byte (see the counterexample). -/
theorem ReadLinesChunks_covers (buf : List UInt8) (g : Nat) (hbuf : buf ≠ []) :
    ∃ chunks : List (List UInt8),
      ReadLinesChunks buf (g + 1) = .ok chunks ∧
      chunks.length = g + 1 ∧
      chunks.flatten = (if buf.getLast? = some 10 then buf.dropLast else buf) ∧
      ChunksNlProp chunks := by
  have hL : 1 ≤ buf.length := List.length_pos.mpr hbuf
  have hcap1 : endCap buf ≤ buf.length := by unfold endCap; split <;> omega
  have hcap2 : buf.length - 1 ≤ endCap buf := by unfold endCap; split <;> omega
  have hcs : (buf.length : Int) / ((g + 1 : Nat) : Int) = ((buf.length / (g + 1) : Nat) : Int) := by
    rw [← Int.ofNat_ediv]
  unfold ReadLinesChunks
  rw [if_neg (by omega), hcs]
  obtain ⟨chunks, fin, hloop, hlen, hf1, hf2, hf3, hjoin, hnl⟩ :=
    chunkLoop_run buf hbuf ((buf.length / (g + 1) : Nat) : Int) (Int.natCast_nonneg _) (g + 1) 0
      (Nat.zero_le _)
  have hfin : fin = endCap buf := by
    rcases hf3 with h | h
    · exact h
    · exfalso
      have hdm := Nat.div_add_mod buf.length (g + 1)
      have hml : buf.length % (g + 1) < g + 1 := Nat.mod_lt _ (by omega)
      have hexp : (g + 1) * (buf.length / (g + 1) + 1) =
          (g + 1) * (buf.length / (g + 1)) + (g + 1) := by ring
      have hbig : buf.length + 1 ≤ (g + 1) * (buf.length / (g + 1) + 1) := by
        rw [hexp]
        linarith
      have hcast : ((g + 1 : Nat) : Int) * (((buf.length / (g + 1) : Nat) : Int) + 1) ≤
          (fin : Int) := by
        push_cast at h ⊢
        linarith
      have hcast2 : ((buf.length : Nat) : Int) + 1 ≤
          ((g + 1 : Nat) : Int) * (((buf.length / (g + 1) : Nat) : Int) + 1) := by
        exact_mod_cast hbig
      have hfl : (fin : Int) ≤ (buf.length : Int) := by
        exact_mod_cast le_trans hf2 hcap1
      linarith
  subst hfin
  refine ⟨chunks, hloop, hlen, ?_, hnl⟩
  rw [hjoin]
  simp only [Nat.sub_zero, List.drop_zero]
  have hgl := getLast_eq_getD buf hbuf
  unfold endCap
  by_cases hb : buf.getD (buf.length - 1) 0 = 10
  · rw [if_pos hb]
    rw [if_pos (by rw [hgl, hb])]
    rw [List.dropLast_eq_take]
  · rw [if_neg hb]
    rw [if_neg (by rw [hgl]; exact fun hx => hb (Option.some.inj hx))]
    exact List.take_length buf

/-- Witness for C3 at a three-byte file with an interior newline, split into
two chunks. -/
theorem readLinesChunks_covers_witness :
    ([72, 10, 33] : List UInt8) ≠ [] ∧
    ∃ chunks : List (List UInt8),
      ReadLinesChunks [72, 10, 33] (1 + 1) = .ok chunks ∧
      chunks.length = 1 + 1 ∧
      chunks.flatten = (if ([72, 10, 33] : List UInt8).getLast? = some 10
        then ([72, 10, 33] : List UInt8).dropLast else [72, 10, 33]) ∧
      ChunksNlProp chunks :=
  ⟨by decide, ReadLinesChunks_covers [72, 10, 33] 1 (by decide)⟩

/-! ### Matcher counters, aggregation and sorting: pkg/inator/match.go -/

/-- SearchMap from types.go and search.go: a Go map from fingerprint to the
unique statement pointer, modelled extensionally. -/
def SearchMap : Type := String → Option LogStatement

/-- Matches from match.go line 202, a Go map from statement pointer to a
pointer to the record bucket, modelled extensionally: the statement value
stands for the pointer the search map yields (one per fingerprint), and a
present key carries the bucket list behind the non-nil slice pointer the
matcher stores. -/
def MatchesFn : Type := LogStatement → Option (List ParsedLog)

/-- Bucket update of the matcher (match.go lines 209-213): install a fresh
one-record bucket on first hit, append through the shared pointer after. -/
def matchesAppend (hit : MatchesFn) (stmt : LogStatement) (p : ParsedLog) : MatchesFn :=
  fun k =>
    if k = stmt then
      match hit stmt with
      | none => some [p]
      | some s => some (s ++ [p])
    else hit k

/-- The two package-level atomic counters of match.go lines 199-200, reset
nowhere. -/
structure Counters where
  numMatched : Int
  numNotMatched : Int
deriving DecidableEq, Repr

/-- Scanner and matcher work for a stream of lines (match.go lines 177-220)
serialised: parse each line, drop it silently on a parse rejection, and
otherwise look the fingerprint up in the search map and bump exactly one of
the two global counters.  The atomic counter increments of the concurrent
workers commute, so the sequential order is faithful for the counts. -/
def matchLoop (sm : SearchMap) :
    List (List Char) → Counters → MatchesFn → Except GoPanic (Counters × MatchesFn)
  | [], g, hit => .ok (g, hit)
  | line :: rest, g, hit =>
    match ParseLine line with
    | .error e => .error e
    | .ok none => matchLoop sm rest g hit
    | .ok (some p) =>
      match sm p.Fingerprint with
      | some stmt =>
        matchLoop sm rest ⟨g.numMatched + 1, g.numNotMatched⟩ (matchesAppend hit stmt p)
      | none => matchLoop sm rest ⟨g.numMatched, g.numNotMatched + 1⟩ hit

/-- Counter fields of MatchResults (match.go lines 227-232). -/
structure MatchResultsCounts where
  NumMatched : Int
  NumNotMatched : Int
deriving DecidableEq, Repr

/-- One Match invocation (match.go lines 252-325) restricted to its record
counting: it starts from the current state of the two package-level counters
and reports their final values (match.go lines 320-324 read the atomics
after the workers finish). -/
def MatchCounts (sm : SearchMap) (lines : List (List Char)) (g : Counters) :
    Except GoPanic (MatchResultsCounts × Counters) :=
  match matchLoop sm lines g (fun _ => none) with
  | .error e => .error e
  | .ok (g2, _) => .ok (⟨g2.numMatched, g2.numNotMatched⟩, g2)

/-- Count of the lines the parser accepts. -/
def acceptedCount (lines : List (List Char)) : Nat :=
  lines.countP (fun l =>
    match ParseLine l with
    | .ok (some _) => true
    | _ => false)

/-- Search map with no entries. -/
def emptySM : SearchMap := fun _ => none

/-- C2: the counters are package-level and never reset.  The first Match
invocation of a process reports NumMatched + NumNotMatched equal to its own
count of accepted lines (here 1), but a second identical invocation starts
from the leftover state and reports 2 instead of its own count 1, so the
per-invocation equality fails for repeated invocations. -/
theorem match_counters_accumulate_across_invocations :
    MatchCounts emptySM [sampleLogLine] ⟨0, 0⟩ = .ok (⟨0, 1⟩, ⟨0, 1⟩) ∧
    MatchCounts emptySM [sampleLogLine] ⟨0, 1⟩ = .ok (⟨0, 2⟩, ⟨0, 2⟩) ∧
    acceptedCount [sampleLogLine] = 1 :=
  ⟨rfl, rfl, rfl⟩

/-- Loop body of AggregateResults (match.go lines 329-337) folding one
per-worker table into the accumulator: append to an existing bucket, install
a missing one, keep accumulator-only buckets. -/
def mergeMatches (first result : MatchesFn) : MatchesFn :=
  fun k =>
    match first k, result k with
    | none, none => none
    | some s, none => some s
    | none, some v => some v
    | some s, some v => some (s ++ v)

/-- AggregateResults from match.go lines 327-339: the accumulator is the
first table of the slice, read unconditionally (an index-out-of-range panic
on an empty slice); the remaining tables are folded into it in place. -/
def AggregateResults (results : List MatchesFn) : Except GoPanic MatchesFn :=
  match results with
  | [] => .error .indexOutOfRange
  | first :: rest => .ok (rest.foldl mergeMatches first)

/-- C10: AggregateResults reads results[0] unconditionally, so the empty
slice panics rather than return an empty aggregate, and on a non-empty slice
the returned aggregate is the first input table serving as the fold
accumulator (in the Go code it is that very map, mutated in place). -/
theorem aggregateResults_first_accumulator :
    AggregateResults [] = .error .indexOutOfRange ∧
    (∀ m : MatchesFn, ∀ rest : List MatchesFn,
      AggregateResults (m :: rest) = .ok (rest.foldl mergeMatches m)) ∧
    (∀ m : MatchesFn, AggregateResults [m] = .ok m) :=
  ⟨rfl, fun _ _ => rfl, fun _ => rfl⟩

/-- Bucket a key holds in a table, the empty bucket when the key is absent. -/
def bucketOf (m : MatchesFn) (k : LogStatement) : List ParsedLog := (m k).getD []

/-- C8: over per-worker tables, aggregation is associative with bucket-level
list equality, and commutative with the same key set and the same bucket
contents as multisets (swapping the operands reverses the append order
inside a bucket, so contents agree up to permutation, not as lists). -/
theorem aggregate_assoc_comm :
    ∀ m1 m2 m3 : MatchesFn,
      (AggregateResults [m1, m2, m3] = .ok (mergeMatches (mergeMatches m1 m2) m3)) ∧
      (∀ k, mergeMatches (mergeMatches m1 m2) m3 k = mergeMatches m1 (mergeMatches m2 m3) k) ∧
      (∀ k, (mergeMatches m1 m2 k).isSome = (mergeMatches m2 m1 k).isSome) ∧
      (∀ k, (bucketOf (mergeMatches m1 m2) k).Perm (bucketOf (mergeMatches m2 m1) k)) := by
  intro m1 m2 m3
  refine ⟨rfl, ?_, ?_, ?_⟩
  · intro k
    simp only [mergeMatches]
    cases m1 k <;> cases m2 k <;> cases m3 k <;> simp [List.append_assoc]
  · intro k
    simp only [mergeMatches]
    cases m1 k <;> cases m2 k <;> simp
  · intro k
    simp only [bucketOf, mergeMatches]
    cases m1 k <;> cases m2 k <;> simp [List.perm_append_comm]

/-- MatchEntry from match.go lines 428-431. -/
structure MatchEntry where
  Log : LogStatement
  Hits : List ParsedLog
deriving DecidableEq, Repr

/-- Go byte-wise lexicographic string order, non-strict, over the ASCII
character lists compared here. -/
def strLeB : List Char → List Char → Bool
  | [], _ => true
  | _ :: _, [] => false
  | a :: xs, b :: ys =>
    if a.toNat < b.toNat then true
    else if b.toNat < a.toNat then false
    else strLeB xs ys

/-- The sort.Slice ordering of SortMatches (match.go lines 448-453) as a
non-strict relation: an entry may precede another when it has more hits, or
equally many hits and a source file at least as large. -/
def entryLeB (a b : MatchEntry) : Bool :=
  decide (b.Hits.length < a.Hits.length) ||
    (a.Hits.length == b.Hits.length && strLeB b.Log.SourceFile.data a.Log.SourceFile.data)

/-- SortMatches from match.go lines 434-456 on the entry list of the results
map (Go map iteration order is arbitrary, so the entry order is an input):
nil bucket pointers become empty hit lists and the entries are sorted by the
sort.Slice ordering; Go's unstable sort is modelled by merge sort, which
establishes the same postcondition for the same ordering. -/
def SortMatches (results : List (LogStatement × Option (List ParsedLog))) : List MatchEntry :=
  (results.map (fun kv =>
    (⟨kv.1, match kv.2 with
      | none => []
      | some v => v⟩ : MatchEntry))).mergeSort entryLeB

/-- The string order is total. -/
theorem strLeB_total : ∀ x y : List Char, strLeB x y || strLeB y x := by
  intro x
  induction x with
  | nil =>
    intro y
    simp [strLeB]
  | cons a xs ih =>
    intro y
    cases y with
    | nil => simp [strLeB]
    | cons b ys =>
      simp only [strLeB]
      by_cases h1 : a.toNat < b.toNat
      · simp [h1]
      · by_cases h2 : b.toNat < a.toNat
        · simp [h1, h2]
        · simp [h1, h2, ih ys]

/-- The string order is transitive. -/
theorem strLeB_trans : ∀ x y z : List Char,
    strLeB x y = true → strLeB y z = true → strLeB x z = true := by
  intro x
  induction x with
  | nil =>
    intro y z h1 h2
    simp [strLeB]
  | cons a xs ih =>
    intro y z h1 h2
    cases y with
    | nil => simp [strLeB] at h1
    | cons b ys =>
      cases z with
      | nil => simp [strLeB] at h2
      | cons c zs =>
        simp only [strLeB] at h1 h2 ⊢
        by_cases hba : b.toNat < a.toNat
        · rw [if_neg (by omega), if_pos hba] at h1
          exact absurd h1 (by simp)
        · by_cases hcb : c.toNat < b.toNat
          · rw [if_neg (by omega), if_pos hcb] at h2
            exact absurd h2 (by simp)
          · by_cases hac : a.toNat < c.toNat
            · rw [if_pos hac]
            · have hab : ¬ a.toNat < b.toNat := by omega
              have hbc : ¬ b.toNat < c.toNat := by omega
              rw [if_neg hab, if_neg hba] at h1
              rw [if_neg hbc, if_neg hcb] at h2
              rw [if_neg hac, if_neg (by omega)]
              exact ih ys zs h1 h2

/-- The sort ordering is transitive. -/
theorem entryLeB_trans : ∀ a b c : MatchEntry,
    entryLeB a b = true → entryLeB b c = true → entryLeB a c = true := by
  intro a b c h1 h2
  simp only [entryLeB, Bool.or_eq_true, Bool.and_eq_true, decide_eq_true_eq,
    beq_iff_eq] at h1 h2 ⊢
  rcases h1 with h1 | h1 <;> rcases h2 with h2 | h2
  · exact Or.inl (by omega)
  · exact Or.inl (by omega)
  · exact Or.inl (by omega)
  · exact Or.inr ⟨by omega, strLeB_trans _ _ _ h2.2 h1.2⟩

/-- The sort ordering is total. -/
theorem entryLeB_total : ∀ a b : MatchEntry, entryLeB a b || entryLeB b a := by
  intro a b
  simp only [entryLeB, Bool.or_eq_true, Bool.and_eq_true, decide_eq_true_eq, beq_iff_eq]
  rcases Nat.lt_trichotomy a.Hits.length b.Hits.length with h | h | h
  · exact Or.inr (Or.inl h)
  · have ht := strLeB_total b.Log.SourceFile.data a.Log.SourceFile.data
    rcases Bool.or_eq_true_iff.mp ht with hx | hx
    · exact Or.inl (Or.inr ⟨h, hx⟩)
    · exact Or.inr (Or.inr ⟨h.symm, hx⟩)
  · exact Or.inl (Or.inl h)

/-- C7: in the sorted output every adjacent pair is ordered: hit counts are
non-increasing, and on equal hit counts the source files are non-increasing
in the byte-wise lexicographic order. -/
theorem sortMatches_sorted (results : List (LogStatement × Option (List ParsedLog))) :
    List.Chain' (fun a b => b.Hits.length ≤ a.Hits.length ∧
      (a.Hits.length = b.Hits.length →
        strLeB b.Log.SourceFile.data a.Log.SourceFile.data = true))
      (SortMatches results) := by
  have hs := List.sorted_mergeSort entryLeB_trans entryLeB_total
    (results.map (fun kv =>
      (⟨kv.1, match kv.2 with
        | none => []
        | some v => v⟩ : MatchEntry)))
  refine List.Pairwise.chain' (List.Pairwise.imp ?_ hs)
  intro a b hab
  simp only [entryLeB, Bool.or_eq_true, Bool.and_eq_true, decide_eq_true_eq,
    beq_iff_eq] at hab
  rcases hab with h | h
  · exact ⟨by omega, fun hq => absurd hq (by omega)⟩
  · exact ⟨by omega, fun _ => h.2⟩

end KlogInator
